import Mathlib

/-!
A shallow embedding of the marvin32 crate (src/lib.rs) and proofs about it.

Machine integers are modelled as `Nat` with explicit reduction modulo `2 ^ 32`
at every operation where the Rust code works in `u32`.  Byte slices are
`List Nat`.  The fallible streaming source is modelled by an explicit event
plan (how many bytes each successive `read` call offers, or which I/O error
it reports), and the panic that `Hasher::write` can hit when it indexes
`slice[..bytes_to_steal]` out of range is modelled by returning `none`.
-/

namespace Marvin

/-- The hash state of two 32-bit halves, `struct Marvin32State { lo, hi }`. -/
structure Marvin32State where
  lo : Nat
  hi : Nat
deriving DecidableEq, Repr

/-- `u32::rotate_left(x, n)` for `0 < n < 32`: `(x <<< n | x >>> (32 - n))`
reduced to 32 bits. -/
def rotl (x n : Nat) : Nat :=
  ((x <<< n) ||| (x >>> (32 - n))) % 2 ^ 32

/-- `fn marvin32_mix(st, v)`: the six-step mixing transform, with every
`u32` addition taken modulo `2 ^ 32` and rotation amounts 20, 9, 27, 19. -/
def marvin32_mix (st : Marvin32State) (v : Nat) : Marvin32State :=
  let lo1 := (st.lo + v) % 2 ^ 32
  let hi1 := st.hi ^^^ lo1
  let lo2 := (rotl lo1 20 + hi1) % 2 ^ 32
  let hi2 := rotl hi1 9 ^^^ lo2
  let lo3 := (rotl lo2 27 + hi2) % 2 ^ 32
  let hi3 := rotl hi2 19
  ⟨lo3, hi3⟩

/-- `u32::from_le_bytes`: little-endian value of a byte list. -/
def fromLE : List Nat → Nat
  | [] => 0
  | b :: rest => b ||| (fromLE rest <<< 8)

/-- The `chunks_exact(4)` loop shared by `marvin32_hash` and
`Hasher::write`: mix every full 4-byte little-endian word into the state and
return the new state together with the remainder of fewer than 4 bytes. -/
def chunksFold : Marvin32State → List Nat → Marvin32State × List Nat
  | st, b0 :: b1 :: b2 :: b3 :: rest =>
    chunksFold (marvin32_mix st (fromLE [b0, b1, b2, b3])) rest
  | st, l => (st, l)

/-- The remainder fold `.iter().rev().fold(0x80, |acc, byte| (acc << 8) | byte)`
with the `u32` shift truncated to 32 bits. -/
def foldRev (l : List Nat) : Nat :=
  l.reverse.foldl (fun acc b => ((acc <<< 8) % 2 ^ 32) ||| b) 0x80

/-- The finalization shared by all three entry points: mix the padded final
word, mix 0, and return `lo ^ hi`. -/
def finalizeState (st : Marvin32State) (rem : List Nat) : Nat :=
  let st1 := marvin32_mix st (foldRev rem)
  let st2 := marvin32_mix st1 0
  st2.lo ^^^ st2.hi

/-- Splitting the 64-bit seed: `lo = seed as u32`, `hi = (seed >> 32) as u32`. -/
def initState (seed : Nat) : Marvin32State :=
  ⟨seed % 2 ^ 32, (seed >>> 32) % 2 ^ 32⟩

/-- `fn marvin32_hash(ptr, seed)`: the one-shot hash. -/
def marvin32_hash (slice : List Nat) (seed : Nat) : Nat :=
  let p := chunksFold (initState seed) slice
  finalizeState p.1 p.2

/-- An I/O error: its kind is collapsed to whether it is `ErrorKind::Interrupted`,
plus an opaque code so that distinct errors stay distinct. -/
structure IoError where
  interrupted : Bool
  code : Nat
deriving DecidableEq, Repr

/-- One behavior step of a streaming byte source: `give n` is a read call
that offers `n + 1` bytes (capped by the requested length and by the bytes
the source still holds; a source with no bytes left reports end-of-input by
returning 0 bytes), and `err e` is a read call that fails with `e`. -/
inductive ReadEv where
  | give (n : Nat)
  | err (e : IoError)
deriving DecidableEq, Repr

/-- Behavior of `marvin32_hash_streaming` once the event plan is exhausted:
from then on the source satisfies every read request in full, so the loop
mixes whole words until fewer than `4 - acc.length` bytes remain and then
finalizes; this closed form is exactly the remaining loop iterations. -/
def streamDrain (st : Marvin32State) (acc data : List Nat) : Except IoError Nat :=
  let req := 4 - acc.length
  if data.length < req then
    Except.ok (finalizeState st (acc ++ data))
  else
    let st1 := marvin32_mix st (fromLE (acc ++ data.take req))
    let p := chunksFold st1 (data.drop req)
    Except.ok (finalizeState p.1 p.2)

/-- The fused loop of `marvin32_hash_streaming` and `read_chunked`:
`acc` is the partly filled 4-byte buffer (`buffer[0..offset]`), `data`
the bytes the source still holds, and the plan drives each `src.read` call.
A read of 0 bytes (source exhausted) ends `read_chunked` with `offset < 4`,
which breaks the outer loop and finalizes over the buffered bytes; a full
buffer mixes a word and restarts `read_chunked`; an `Interrupted` error is
retried (the event is consumed, nothing else changes); any other error is
returned immediately via `?`. -/
def streamRun (st : Marvin32State) (acc data : List Nat) : List ReadEv → Except IoError Nat
  | [] => streamDrain st acc data
  | ReadEv.give n :: plan =>
    if data.length = 0 then
      Except.ok (finalizeState st acc)
    else
      let req := 4 - acc.length
      let k := min (n + 1) (min req data.length)
      let acc2 := acc ++ data.take k
      if acc2.length = 4 then
        streamRun (marvin32_mix st (fromLE acc2)) [] (data.drop k) plan
      else
        streamRun st acc2 (data.drop k) plan
  | ReadEv.err e :: plan =>
    if e.interrupted then streamRun st acc data plan else Except.error e

/-- `fn marvin32_hash_streaming(source, seed)` over a source holding the
bytes `data` and behaving according to `plan`. -/
def marvin32_hash_streaming (data : List Nat) (plan : List ReadEv) (seed : Nat) :
    Except IoError Nat :=
  streamRun (initState seed) [] data plan

/-- A plan consisting only of successful reads: such a source yields exactly
its bytes, in order, before reporting end-of-input. -/
def GoodPlan (plan : List ReadEv) : Bool :=
  plan.all fun ev =>
    match ev with
    | ReadEv.give _ => true
    | ReadEv.err _ => false

/-- Remove the `Interrupted` read errors from a plan. -/
def dropInterrupted (plan : List ReadEv) : List ReadEv :=
  plan.filter fun ev =>
    match ev with
    | ReadEv.err e => !e.interrupted
    | ReadEv.give _ => true

/-- Total number of bytes the reads of a plan offer. -/
def offered (plan : List ReadEv) : Nat :=
  (plan.map fun ev =>
    match ev with
    | ReadEv.give n => n + 1
    | ReadEv.err _ => 0).sum

/-- `struct Marvin32`: the incremental hasher.  The `Cursor<[u8; 4]>` is
modelled by the list of its live bytes `buffer[0..position]` (its stale
bytes past the position are never read by the code). -/
structure Marvin32 where
  state : Marvin32State
  buffer : List Nat
deriving DecidableEq, Repr

/-- `Marvin32::new(seed)`. -/
def marvin32New (seed : Nat) : Marvin32 :=
  ⟨initState seed, []⟩

/-- `Hasher::write for Marvin32`.  When the residue buffer is non-empty the
code evaluates `&slice[..bytes_to_steal]`, which panics whenever the slice
holds fewer than `bytes_to_steal` bytes: that panic is modelled as `none`.
Otherwise the stolen bytes complete a word that is mixed at once (an
array-backed cursor write of `bytes_to_steal` bytes always writes all of
them), the `chunks_exact(4)` loop mixes the full words of the rest, and the
remainder becomes the new buffer contents. -/
def hasherWrite (m : Marvin32) (slice : List Nat) : Option Marvin32 :=
  let bytesToSteal := 4 - m.buffer.length
  if bytesToSteal < 4 then
    if slice.length < bytesToSteal then
      none
    else
      let full := m.buffer ++ slice.take bytesToSteal
      let st1 := marvin32_mix m.state (fromLE full)
      let p := chunksFold st1 (slice.drop bytesToSteal)
      some ⟨p.1, p.2⟩
  else
    let p := chunksFold m.state slice
    some ⟨p.1, p.2⟩

/-- `Hasher::finish for Marvin32`: fold the buffered residue, run the two
closing mixes on a clone of the state, and widen `lo ^ hi` to `u64`. -/
def hasherFinish (m : Marvin32) : Nat :=
  finalizeState m.state m.buffer

/-- Push a sequence of slices in order. -/
def writeChunks (m : Marvin32) : List (List Nat) → Option Marvin32
  | [] => some m
  | c :: cs => (hasherWrite m c).bind fun m2 => writeChunks m2 cs

/-- An operation on the incremental hasher: a `Hasher::write` call or a
`Hasher::finish` call. -/
inductive HasherOp where
  | push (s : List Nat)
  | finish
deriving DecidableEq, Repr

/-- Run a sequence of hasher operations, collecting the value returned by
each `finish` call; `none` if some `write` panics. -/
def runOps : Marvin32 → List HasherOp → Option (Marvin32 × List Nat)
  | m, [] => some (m, [])
  | m, HasherOp.push s :: rest => (hasherWrite m s).bind fun m2 => runOps m2 rest
  | m, HasherOp.finish :: rest =>
    (runOps m rest).map fun p => (p.1, hasherFinish m :: p.2)

/-- The slices pushed by a sequence of operations, in order. -/
def pushesOf : List HasherOp → List (List Nat)
  | [] => []
  | HasherOp.push s :: rest => s :: pushesOf rest
  | HasherOp.finish :: rest => pushesOf rest

/-- The values the `finish` calls of an operation sequence ought to return
according to the spec: at each `finish`, the value a fresh hasher would
return after only the pushes made so far (`acc` holds them). -/
def freshOuts (seed : Nat) : List (List Nat) → List HasherOp → Option (List Nat)
  | _, [] => some []
  | acc, HasherOp.push s :: rest => freshOuts seed (acc ++ [s]) rest
  | acc, HasherOp.finish :: rest =>
    (writeChunks (marvin32New seed) acc).bind fun m =>
      (freshOuts seed acc rest).map fun outs => hasherFinish m :: outs

/-- Modelled from the spec: step `lo := lo + v` (wrapping). -/
def specStepAdd (st : Marvin32State) (v : Nat) : Marvin32State :=
  ⟨(st.lo + v) % 2 ^ 32, st.hi⟩

/-- Modelled from the spec: step `hi := hi XOR lo`. -/
def specStepXor (st : Marvin32State) : Marvin32State :=
  ⟨st.lo, st.hi ^^^ st.lo⟩

/-- Modelled from the spec: step `lo := rotl(lo, 20) + hi` (wrapping). -/
def specStepRotAdd20 (st : Marvin32State) : Marvin32State :=
  ⟨(rotl st.lo 20 + st.hi) % 2 ^ 32, st.hi⟩

/-- Modelled from the spec: step `hi := rotl(hi, 9) XOR lo`. -/
def specStepRotXor9 (st : Marvin32State) : Marvin32State :=
  ⟨st.lo, rotl st.hi 9 ^^^ st.lo⟩

/-- Modelled from the spec: step `lo := rotl(lo, 27) + hi` (wrapping). -/
def specStepRotAdd27 (st : Marvin32State) : Marvin32State :=
  ⟨(rotl st.lo 27 + st.hi) % 2 ^ 32, st.hi⟩

/-- Modelled from the spec: step `hi := rotl(hi, 19)`. -/
def specStepRot19 (st : Marvin32State) : Marvin32State :=
  ⟨st.lo, rotl st.hi 19⟩

/-- Modelled from the spec: the mixing transform as the six steps applied in
exactly the stated order. -/
def mixSpec (st : Marvin32State) (v : Nat) : Marvin32State :=
  specStepRot19 (specStepRotAdd27 (specStepRotXor9 (specStepRotAdd20
    (specStepXor (specStepAdd st v)))))

/-- Both halves of the state are 32-bit values. -/
def ValidState (st : Marvin32State) : Prop :=
  st.lo < 2 ^ 32 ∧ st.hi < 2 ^ 32

instance (st : Marvin32State) : Decidable (ValidState st) :=
  inferInstanceAs (Decidable (And _ _))

/-- Explicit inverse of `marvin32_mix st v` in its state argument, undoing
the six steps in reverse order (rotations by the complementary amounts,
XOR cancellation, and subtraction modulo `2 ^ 32`). -/
def mixInv (st : Marvin32State) (v : Nat) : Marvin32State :=
  let hi2 := rotl st.hi 13
  let lo2 := rotl ((st.lo + 2 ^ 32 - hi2) % 2 ^ 32) 5
  let hi1 := rotl (hi2 ^^^ lo2) 23
  let lo1 := rotl ((lo2 + 2 ^ 32 - hi1) % 2 ^ 32) 12
  let hi0 := hi1 ^^^ lo1
  let lo0 := (lo1 + 2 ^ 32 - v % 2 ^ 32) % 2 ^ 32
  ⟨lo0, hi0⟩

/-- The 14-byte test vector of the unit tests, the UTF-16-LE bytes of
Abcdefg with a capital A. -/
def testVector : List Nat :=
  [0x41, 0, 0x62, 0, 0x63, 0, 0x64, 0, 0x65, 0, 0x66, 0, 0x67, 0]

theorem pow32_lit : (2 : Nat) ^ 32 = 4294967296 := by norm_num

theorem rotl_lt (x n : Nat) : rotl x n < 2 ^ 32 :=
  Nat.mod_lt _ (Nat.two_pow_pos 32)

theorem div_pow_lt {x n : Nat} (hx : x < 2 ^ 32) (hn : n ≤ 32) :
    x / 2 ^ (32 - n) < 2 ^ n := by
  rw [Nat.div_lt_iff_lt_mul (Nat.two_pow_pos _)]
  calc x < 2 ^ 32 := hx
    _ = 2 ^ n * 2 ^ (32 - n) := by rw [← Nat.pow_add]; congr 1; omega

theorem rotl_eq_of_lt {x n : Nat} (hx : x < 2 ^ 32) (h0 : 0 < n) (h32 : n < 32) :
    rotl x n = (x % 2 ^ (32 - n)) * 2 ^ n + x / 2 ^ (32 - n) := by
  have hmp : 2 ^ (32 - n) * 2 ^ n = 2 ^ 32 := by rw [← Nat.pow_add]; congr 1; omega
  have hq : x / 2 ^ (32 - n) < 2 ^ n := div_pow_lt hx (by omega)
  have hsplit : 2 ^ n * x
      = 2 ^ 32 * (x / 2 ^ (32 - n)) + (x % 2 ^ (32 - n)) * 2 ^ n := by
    conv_lhs => rw [← Nat.div_add_mod x (2 ^ (32 - n))]
    rw [← hmp]; ring
  have hlt : (x % 2 ^ (32 - n)) * 2 ^ n + x / 2 ^ (32 - n) < 2 ^ 32 := by
    have h1 : x % 2 ^ (32 - n) + 1 ≤ 2 ^ (32 - n) := Nat.mod_lt _ (Nat.two_pow_pos _)
    have h2 : (x % 2 ^ (32 - n) + 1) * 2 ^ n ≤ 2 ^ 32 := by
      rw [← hmp]; exact Nat.mul_le_mul_right _ h1
    rw [Nat.add_mul, Nat.one_mul] at h2
    omega
  calc rotl x n = (x * 2 ^ n ||| x / 2 ^ (32 - n)) % 2 ^ 32 := by
        rw [rotl, Nat.shiftLeft_eq, Nat.shiftRight_eq_div_pow]
    _ = (2 ^ n * x + x / 2 ^ (32 - n)) % 2 ^ 32 := by
        rw [Nat.mul_comm x (2 ^ n), ← Nat.mul_add_lt_is_or hq x]
    _ = ((x % 2 ^ (32 - n)) * 2 ^ n + x / 2 ^ (32 - n)) % 2 ^ 32 := by
        rw [hsplit, Nat.add_assoc, Nat.mul_add_mod]
    _ = (x % 2 ^ (32 - n)) * 2 ^ n + x / 2 ^ (32 - n) := Nat.mod_eq_of_lt hlt

theorem rotl_rotl {x : Nat} (n : Nat) (hx : x < 2 ^ 32) (h0 : 0 < n) (h32 : n < 32) :
    rotl (rotl x n) (32 - n) = x := by
  have hq : x / 2 ^ (32 - n) < 2 ^ n := div_pow_lt hx (by omega)
  have h1 : rotl x n = (x % 2 ^ (32 - n)) * 2 ^ n + x / 2 ^ (32 - n) :=
    rotl_eq_of_lt hx h0 h32
  have h2 : rotl (rotl x n) (32 - n)
      = (rotl x n % 2 ^ (32 - (32 - n))) * 2 ^ (32 - n)
        + rotl x n / 2 ^ (32 - (32 - n)) :=
    rotl_eq_of_lt (rotl_lt x n) (by omega) (by omega)
  have hnn : 32 - (32 - n) = n := by omega
  rw [hnn] at h2
  have hmod : ((x % 2 ^ (32 - n)) * 2 ^ n + x / 2 ^ (32 - n)) % 2 ^ n
      = x / 2 ^ (32 - n) := by
    rw [Nat.mul_comm, Nat.mul_add_mod, Nat.mod_eq_of_lt hq]
  have hdiv : ((x % 2 ^ (32 - n)) * 2 ^ n + x / 2 ^ (32 - n)) / 2 ^ n
      = x % 2 ^ (32 - n) := by
    rw [Nat.mul_comm, Nat.mul_add_div (Nat.two_pow_pos n), Nat.div_eq_of_lt hq,
      Nat.add_zero]
  rw [h2, h1, hmod, hdiv, Nat.mul_comm (x / 2 ^ (32 - n)) (2 ^ (32 - n))]
  exact Nat.div_add_mod x (2 ^ (32 - n))

theorem add_sub_mod_cancel {a b : Nat} (ha : a < 2 ^ 32) (hb : b < 2 ^ 32) :
    ((a + b) % 2 ^ 32 + 2 ^ 32 - b) % 2 ^ 32 = a := by
  rw [pow32_lit] at ha hb ⊢
  omega

theorem sub_add_mod_cancel {a b : Nat} (ha : a < 2 ^ 32) (hb : b < 2 ^ 32) :
    ((a + 2 ^ 32 - b) % 2 ^ 32 + b) % 2 ^ 32 = a := by
  rw [pow32_lit] at ha hb ⊢
  omega

theorem add_mod_sub_cancel {a : Nat} (v : Nat) (ha : a < 2 ^ 32) :
    ((a + v) % 2 ^ 32 + 2 ^ 32 - v % 2 ^ 32) % 2 ^ 32 = a := by
  rw [pow32_lit] at ha ⊢
  omega

theorem sub_mod_add_mod_cancel {a : Nat} (v : Nat) (ha : a < 2 ^ 32) :
    ((a + 2 ^ 32 - v % 2 ^ 32) % 2 ^ 32 + v) % 2 ^ 32 = a := by
  rw [pow32_lit] at ha ⊢
  omega

theorem mix_valid (st : Marvin32State) (v : Nat) : ValidState (marvin32_mix st v) :=
  ⟨Nat.mod_lt _ (Nat.two_pow_pos 32), rotl_lt _ _⟩

theorem mixInv_mix (st : Marvin32State) (v : Nat) (h : ValidState st) :
    mixInv (marvin32_mix st v) v = st := by
  obtain ⟨lo, hi⟩ := st
  obtain ⟨hlo, hhi⟩ := h
  dsimp only [marvin32_mix, mixInv]
  set lo1 := (lo + v) % 2 ^ 32 with hlo1def
  set hi1 := hi ^^^ lo1 with hhi1def
  set lo2 := (rotl lo1 20 + hi1) % 2 ^ 32 with hlo2def
  set hi2 := rotl hi1 9 ^^^ lo2 with hhi2def
  have hlo1lt : lo1 < 2 ^ 32 := hlo1def ▸ Nat.mod_lt _ (Nat.two_pow_pos 32)
  have hhi1lt : hi1 < 2 ^ 32 := hhi1def ▸ Nat.xor_lt_two_pow hhi hlo1lt
  have hlo2lt : lo2 < 2 ^ 32 := hlo2def ▸ Nat.mod_lt _ (Nat.two_pow_pos 32)
  have hhi2lt : hi2 < 2 ^ 32 := hhi2def ▸ Nat.xor_lt_two_pow (rotl_lt _ _) hlo2lt
  have e1 : rotl (rotl hi2 19) 13 = hi2 := by
    have h13 : (13 : Nat) = 32 - 19 := by norm_num
    rw [h13]
    exact rotl_rotl 19 hhi2lt (by norm_num) (by norm_num)
  rw [e1, add_sub_mod_cancel (rotl_lt lo2 27) hhi2lt]
  have e2 : rotl (rotl lo2 27) 5 = lo2 := by
    have h5 : (5 : Nat) = 32 - 27 := by norm_num
    rw [h5]
    exact rotl_rotl 27 hlo2lt (by norm_num) (by norm_num)
  rw [e2, hhi2def, Nat.xor_cancel_right]
  have e3 : rotl (rotl hi1 9) 23 = hi1 := by
    have h23 : (23 : Nat) = 32 - 9 := by norm_num
    rw [h23]
    exact rotl_rotl 9 hhi1lt (by norm_num) (by norm_num)
  rw [e3, hlo2def, add_sub_mod_cancel (rotl_lt lo1 20) hhi1lt]
  have e4 : rotl (rotl lo1 20) 12 = lo1 := by
    have h12 : (12 : Nat) = 32 - 20 := by norm_num
    rw [h12]
    exact rotl_rotl 20 hlo1lt (by norm_num) (by norm_num)
  rw [e4, hhi1def, Nat.xor_cancel_right, hlo1def, add_mod_sub_cancel v hlo]

theorem mix_mixInv (st : Marvin32State) (v : Nat) (h : ValidState st) :
    marvin32_mix (mixInv st v) v = st := by
  obtain ⟨lo, hi⟩ := st
  obtain ⟨hlo, hhi⟩ := h
  dsimp only [marvin32_mix, mixInv]
  set ihi2 := rotl hi 13 with hihi2def
  set ilo2 := rotl ((lo + 2 ^ 32 - ihi2) % 2 ^ 32) 5 with hilo2def
  set ihi1 := rotl (ihi2 ^^^ ilo2) 23 with hihi1def
  set ilo1 := rotl ((ilo2 + 2 ^ 32 - ihi1) % 2 ^ 32) 12 with hilo1def
  have hihi2lt : ihi2 < 2 ^ 32 := hihi2def ▸ rotl_lt _ _
  have hilo2lt : ilo2 < 2 ^ 32 := hilo2def ▸ rotl_lt _ _
  have hihi1lt : ihi1 < 2 ^ 32 := hihi1def ▸ rotl_lt _ _
  have hilo1lt : ilo1 < 2 ^ 32 := hilo1def ▸ rotl_lt _ _
  rw [sub_mod_add_mod_cancel v hilo1lt, Nat.xor_cancel_right]
  have e1 : rotl ilo1 20 = (ilo2 + 2 ^ 32 - ihi1) % 2 ^ 32 := by
    rw [hilo1def]
    have h20 : (20 : Nat) = 32 - 12 := by norm_num
    rw [h20]
    exact rotl_rotl 12 (Nat.mod_lt _ (Nat.two_pow_pos 32)) (by norm_num) (by norm_num)
  rw [e1, sub_add_mod_cancel hilo2lt hihi1lt]
  have e2 : rotl ihi1 9 = ihi2 ^^^ ilo2 := by
    rw [hihi1def]
    have h9 : (9 : Nat) = 32 - 23 := by norm_num
    rw [h9]
    exact rotl_rotl 23 (Nat.xor_lt_two_pow hihi2lt hilo2lt) (by norm_num) (by norm_num)
  rw [e2, Nat.xor_cancel_right]
  have e3 : rotl ilo2 27 = (lo + 2 ^ 32 - ihi2) % 2 ^ 32 := by
    rw [hilo2def]
    have h27 : (27 : Nat) = 32 - 5 := by norm_num
    rw [h27]
    exact rotl_rotl 5 (Nat.mod_lt _ (Nat.two_pow_pos 32)) (by norm_num) (by norm_num)
  rw [e3, sub_add_mod_cancel hlo hihi2lt]
  have e4 : rotl ihi2 19 = hi := by
    rw [hihi2def]
    have h19 : (19 : Nat) = 32 - 13 := by norm_num
    rw [h19]
    exact rotl_rotl 13 hhi (by norm_num) (by norm_num)
  rw [e4]

/-- Claim C5: the mixing core is the deterministic total function that
performs exactly the spec sequence lo := lo + v; hi := hi XOR lo;
lo := rotl(lo, 20) + hi; hi := rotl(hi, 9) XOR lo; lo := rotl(lo, 27) + hi;
hi := rotl(hi, 19), with all additions modulo 2 ^ 32, in this order. -/
theorem mix_follows_spec_sequence :
    ∀ (st : Marvin32State) (v : Nat), marvin32_mix st v = mixSpec st v :=
  fun _ _ => rfl

/-- Claim C10: for every word v, mixing v is a bijection on 64-bit states:
the state stays 32-bit valid, `mixInv` is a two-sided inverse on valid
states, and two distinct valid states stay distinct after mixing the same
word. -/
theorem mix_bijective :
    (∀ (st : Marvin32State) (v : Nat), ValidState (marvin32_mix st v)) ∧
    (∀ (st : Marvin32State) (v : Nat), ValidState st →
      mixInv (marvin32_mix st v) v = st ∧ marvin32_mix (mixInv st v) v = st) ∧
    (∀ (s1 s2 : Marvin32State) (v : Nat), ValidState s1 → ValidState s2 →
      marvin32_mix s1 v = marvin32_mix s2 v → s1 = s2) := by
  refine ⟨mix_valid, fun st v h => ⟨mixInv_mix st v h, mix_mixInv st v h⟩,
    fun s1 s2 v h1 h2 heq => ?_⟩
  have e1 : mixInv (marvin32_mix s1 v) v = s1 := mixInv_mix s1 v h1
  have e2 : mixInv (marvin32_mix s2 v) v = s2 := mixInv_mix s2 v h2
  rw [← e1, ← e2, heq]

/-- Witness for C10 at the concrete valid state (1, 2) and word 3. -/
theorem mix_bijective_witness :
    ValidState ⟨1, 2⟩ ∧
    mixInv (marvin32_mix ⟨1, 2⟩ 3) 3 = ⟨1, 2⟩ ∧
    marvin32_mix (mixInv ⟨1, 2⟩ 3) 3 = ⟨1, 2⟩ :=
  ⟨by decide, (mix_bijective.2.1 ⟨1, 2⟩ 3 (by decide)).1,
    (mix_bijective.2.1 ⟨1, 2⟩ 3 (by decide)).2⟩

theorem chunksFold_short (st : Marvin32State) (l : List Nat) (h : l.length < 4) :
    chunksFold st l = (st, l) := by
  match l with
  | [] => exact rfl
  | [a] => exact rfl
  | [a, b] => exact rfl
  | [a, b, c] => exact rfl
  | a :: b :: c :: d :: rest => simp [List.length_cons] at h; omega

theorem chunksFold_step (st : Marvin32State) (l : List Nat) (h : 4 ≤ l.length) :
    chunksFold st l
      = chunksFold (marvin32_mix st (fromLE (l.take 4))) (l.drop 4) := by
  match l with
  | [] => simp at h
  | [a] => simp at h
  | [a, b] => simp at h
  | [a, b, c] => simp at h
  | a :: b :: c :: d :: rest => exact rfl

theorem chunksFold_rem_lt : ∀ (l : List Nat) (st : Marvin32State),
    (chunksFold st l).2.length < 4
  | [], _ => by simp [chunksFold]
  | [a], _ => by simp [chunksFold]
  | [a, b], _ => by simp [chunksFold]
  | [a, b, c], _ => by simp [chunksFold]
  | a :: b :: c :: d :: rest, st => by
    simp only [chunksFold]
    exact chunksFold_rem_lt rest _

/-- Claim C9: the residue buffer length is 0 at construction and, whenever a
push call on a hasher with residue length below 4 completes (no panic), the
resulting residue length is again below 4. -/
theorem buffer_invariant :
    (∀ seed : Nat, (marvin32New seed).buffer.length = 0) ∧
    (∀ (m : Marvin32) (slice : List Nat) (m2 : Marvin32),
      m.buffer.length < 4 → hasherWrite m slice = some m2 →
      m2.buffer.length < 4) := by
  refine ⟨fun _ => rfl, fun m slice m2 hlen hw => ?_⟩
  simp only [hasherWrite] at hw
  split at hw
  · split at hw
    · exact absurd hw (by simp)
    · rw [Option.some.injEq] at hw
      subst hw
      exact chunksFold_rem_lt _ _
  · rw [Option.some.injEq] at hw
    subst hw
    exact chunksFold_rem_lt _ _

/-- Witness for C9: a fresh hasher with seed 0, pushed one byte. -/
theorem buffer_invariant_witness :
    (marvin32New 0).buffer.length = 0 ∧
    (marvin32New 0).buffer.length < 4 ∧
    hasherWrite (marvin32New 0) [1] = some ⟨initState 0, [1]⟩ ∧
    (Marvin32.mk (initState 0) [1]).buffer.length < 4 :=
  ⟨buffer_invariant.1 0, by decide, by decide,
    buffer_invariant.2 (marvin32New 0) [1] ⟨initState 0, [1]⟩ (by decide) (by decide)⟩

/-- Claim C1 (failing input): pushing B = [0, 0] with seed 0 one byte at a
time panics on the second write, so no chunking-independent value is
produced, while the all-at-once push of the same bytes returns the one-shot
hash. -/
theorem hasher_write_panics_on_one_byte_chunking :
    writeChunks (marvin32New 0) [[0], [0]] = none ∧
    (writeChunks (marvin32New 0) [[0, 0]]).map hasherFinish
      = some (marvin32_hash [0, 0] 0) := by
  constructor
  · decide
  · decide

/-- Claim C3 (failing input): from the reachable state new(0) then
write([1]), a write of the empty slice hits the out-of-range slice index
`slice[..bytes_to_steal]` and panics. -/
theorem hasher_write_panics_on_empty_slice :
    hasherWrite (marvin32New 0) [1] = some ⟨initState 0, [1]⟩ ∧
    hasherWrite ⟨initState 0, [1]⟩ [] = none := by
  constructor
  · decide
  · decide

theorem take4_append (acc data : List Nat) (h : acc.length < 4) :
    (acc ++ data).take 4 = acc ++ data.take (4 - acc.length) := by
  rw [List.take_append_eq_append_take, List.take_of_length_le (by omega)]

theorem drop4_append (acc data : List Nat) (h : acc.length < 4) :
    (acc ++ data).drop 4 = data.drop (4 - acc.length) := by
  rw [List.drop_append_eq_append_drop, List.drop_eq_nil_of_le (by omega),
    List.nil_append]

theorem streamRun_good : ∀ (plan : List ReadEv) (st : Marvin32State)
    (acc data : List Nat), acc.length < 4 → GoodPlan plan = true →
    streamRun st acc data plan
      = Except.ok (finalizeState (chunksFold st (acc ++ data)).1
          (chunksFold st (acc ++ data)).2) := by
  intro plan
  induction plan with
  | nil =>
    intro st acc data hacc _
    simp only [streamRun, streamDrain]
    by_cases hlt : data.length < 4 - acc.length
    · rw [if_pos hlt, chunksFold_short st (acc ++ data)
        (by rw [List.length_append]; omega)]
    · rw [if_neg hlt, chunksFold_step st (acc ++ data)
        (by rw [List.length_append]; omega),
        take4_append acc data hacc, drop4_append acc data hacc]
  | cons ev plan ih =>
    intro st acc data hacc hgood
    cases ev with
    | err e => simp [GoodPlan] at hgood
    | give n =>
      have hgood2 : GoodPlan plan = true := by
        simp only [GoodPlan, List.all_cons, Bool.and_eq_true] at hgood
        exact hgood.2
      simp only [streamRun]
      by_cases hd : data.length = 0
      · rw [if_pos hd]
        have hdata : data = [] := List.length_eq_zero.mp hd
        subst hdata
        rw [List.append_nil, chunksFold_short st acc hacc]
      · rw [if_neg hd]
        set k := min (n + 1) (min (4 - acc.length) data.length) with hkdef
        have hkd : k ≤ data.length := by omega
        have htk : (data.take k).length = k := by rw [List.length_take]; omega
        by_cases hfull : (acc ++ data.take k).length = 4
        · rw [if_pos hfull]
          have hkeq : k = 4 - acc.length := by
            rw [List.length_append, htk] at hfull; omega
          rw [ih _ [] (data.drop k) (by simp) hgood2, List.nil_append,
            chunksFold_step st (acc ++ data) (by rw [List.length_append]; omega),
            take4_append acc data hacc, drop4_append acc data hacc, ← hkeq]
        · rw [if_neg hfull]
          have hlt4 : (acc ++ data.take k).length < 4 := by
            rw [List.length_append, htk] at hfull ⊢
            omega
          rw [ih _ (acc ++ data.take k) (data.drop k) hlt4 hgood2,
            List.append_assoc, List.take_append_drop]

theorem streaming_good (data : List Nat) (plan : List ReadEv) (seed : Nat)
    (h : GoodPlan plan = true) :
    marvin32_hash_streaming data plan seed = Except.ok (marvin32_hash data seed) := by
  simp only [marvin32_hash_streaming, marvin32_hash]
  rw [streamRun_good plan (initState seed) [] data (by simp) h, List.nil_append]

/-- Claim C2: for every byte sequence and seed, streaming over any source
that yields exactly those bytes before end-of-input, in reads of arbitrary
positive sizes, returns ok of the one-shot hash. -/
theorem streaming_matches_oneshot (data : List Nat) (plan : List ReadEv)
    (seed : Nat) (h : GoodPlan plan = true) :
    marvin32_hash_streaming data plan seed
      = Except.ok (marvin32_hash data seed) :=
  streaming_good data plan seed h

/-- Witness for C2: the test vector, fragmented into reads of sizes
1, 3, 1, 11 (the last capped by the remaining bytes). -/
theorem streaming_matches_oneshot_witness :
    GoodPlan [ReadEv.give 0, ReadEv.give 2, ReadEv.give 0, ReadEv.give 10] = true ∧
    marvin32_hash_streaming testVector
        [ReadEv.give 0, ReadEv.give 2, ReadEv.give 0, ReadEv.give 10] 99
      = Except.ok (marvin32_hash testVector 99) :=
  ⟨by decide, streaming_matches_oneshot testVector
    [ReadEv.give 0, ReadEv.give 2, ReadEv.give 0, ReadEv.give 10] 99 (by decide)⟩

/-- Claim C4: the canonical vector: hashing the UTF-16-LE bytes of Abcdefg
with seed 0x5D70D359C498B3F8 gives 0xba627c81 from the one-shot, streaming
and incremental entry points. -/
theorem known_vector :
    marvin32_hash testVector 0x5D70D359C498B3F8 = 0xba627c81 ∧
    marvin32_hash_streaming testVector [] 0x5D70D359C498B3F8
      = Except.ok 0xba627c81 ∧
    (writeChunks (marvin32New 0x5D70D359C498B3F8) [testVector]).map hasherFinish
      = some 0xba627c81 := by
  refine ⟨by decide, ?_, by decide⟩
  rw [streaming_good testVector [] 0x5D70D359C498B3F8 rfl]
  rw [show marvin32_hash testVector 0x5D70D359C498B3F8 = 0xba627c81 from by decide]

/-- Claim C6: the finalization rule: the final word is the reverse fold of
the residue with accumulator 0x80 and step acc := (acc << 8) | byte (0x80
for an empty residue), followed by mix of the final word, mix of 0, and
lo XOR hi; the one-shot, incremental finish, and streaming paths all apply
this same rule. -/
theorem finalization_rule :
    foldRev [] = 0x80 ∧
    (∀ (b : Nat) (l : List Nat),
      foldRev (b :: l) = ((foldRev l <<< 8) % 2 ^ 32) ||| b) ∧
    (∀ (slice : List Nat) (seed : Nat),
      marvin32_hash slice seed
        = finalizeState (chunksFold (initState seed) slice).1
            (chunksFold (initState seed) slice).2) ∧
    (∀ m : Marvin32, hasherFinish m = finalizeState m.state m.buffer) ∧
    (∀ (st : Marvin32State) (acc : List Nat) (n : Nat) (plan : List ReadEv),
      streamRun st acc [] (ReadEv.give n :: plan)
        = Except.ok (finalizeState st acc)) ∧
    (∀ st : Marvin32State, streamRun st [] [] [] = Except.ok (finalizeState st [])) := by
  refine ⟨rfl, fun b l => ?_, fun slice seed => rfl, fun m => rfl,
    fun st acc n plan => ?_, fun st => ?_⟩
  · simp [foldRev, List.foldl_append]
  · simp [streamRun]
  · simp [streamRun, streamDrain]

theorem streamRun_dropInterrupted : ∀ (plan : List ReadEv) (st : Marvin32State)
    (acc data : List Nat),
    streamRun st acc data plan = streamRun st acc data (dropInterrupted plan) := by
  intro plan
  induction plan with
  | nil => intro st acc data; rfl
  | cons ev plan ih =>
    intro st acc data
    cases ev with
    | give n =>
      have hdi : dropInterrupted (ReadEv.give n :: plan)
          = ReadEv.give n :: dropInterrupted plan := by
        simp [dropInterrupted]
      rw [hdi]
      simp only [streamRun]
      by_cases hd : data.length = 0
      · rw [if_pos hd, if_pos hd]
      · rw [if_neg hd, if_neg hd]
        by_cases hfull : (acc ++ data.take
            (min (n + 1) (min (4 - acc.length) data.length))).length = 4
        · rw [if_pos hfull, if_pos hfull]
          exact ih _ _ _
        · rw [if_neg hfull, if_neg hfull]
          exact ih _ _ _
    | err e =>
      cases he : e.interrupted with
      | false =>
        have hdi : dropInterrupted (ReadEv.err e :: plan)
            = ReadEv.err e :: dropInterrupted plan := by
          simp [dropInterrupted, he]
        rw [hdi]
        simp [streamRun, he]
      | true =>
        have hdi : dropInterrupted (ReadEv.err e :: plan) = dropInterrupted plan := by
          simp [dropInterrupted, he]
        rw [hdi]
        simp only [streamRun, he, if_true]
        exact ih _ _ _

theorem streamRun_fatal : ∀ (pre : List ReadEv) (st : Marvin32State)
    (acc data : List Nat) (e : IoError) (rest : List ReadEv),
    GoodPlan pre = true → e.interrupted = false → acc.length < 4 →
    offered pre < data.length →
    streamRun st acc data (pre ++ ReadEv.err e :: rest) = Except.error e := by
  intro pre
  induction pre with
  | nil =>
    intro st acc data e rest _ hint _ _
    simp [streamRun, hint]
  | cons ev pre ih =>
    intro st acc data e rest hgood hint hacc hoff
    cases ev with
    | err e2 => simp [GoodPlan] at hgood
    | give n =>
      have hgood2 : GoodPlan pre = true := by
        simp only [GoodPlan, List.all_cons, Bool.and_eq_true] at hgood
        exact hgood.2
      have hoffc : offered (ReadEv.give n :: pre) = n + 1 + offered pre := by
        simp [offered]
      rw [hoffc] at hoff
      rw [List.cons_append]
      simp only [streamRun]
      have hd : ¬ data.length = 0 := by omega
      rw [if_neg hd]
      set k := min (n + 1) (min (4 - acc.length) data.length) with hkdef
      have hkd : k ≤ data.length := by omega
      have hkn : k ≤ n + 1 := by omega
      have htk : (data.take k).length = k := by rw [List.length_take]; omega
      by_cases hfull : (acc ++ data.take k).length = 4
      · rw [if_pos hfull]
        exact ih _ [] (data.drop k) e rest hgood2 hint (by simp)
          (by rw [List.length_drop]; omega)
      · rw [if_neg hfull]
        have hlt4 : (acc ++ data.take k).length < 4 := by
          rw [List.length_append, htk] at hfull ⊢
          omega
        exact ih _ (acc ++ data.take k) (data.drop k) e rest hgood2 hint hlt4
          (by rw [List.length_drop]; omega)

/-- Claim C7: interrupted read errors are retried transparently and never
surface (removing them from the source behavior never changes the result),
and any read error of another kind makes hash_streaming return exactly that
error, unchanged, producing no hash value. -/
theorem streaming_error_handling :
    (∀ (data : List Nat) (plan : List ReadEv) (seed : Nat),
      marvin32_hash_streaming data plan seed
        = marvin32_hash_streaming data (dropInterrupted plan) seed) ∧
    (∀ (data : List Nat) (pre : List ReadEv) (e : IoError)
        (rest : List ReadEv) (seed : Nat),
      GoodPlan pre = true → e.interrupted = false → offered pre < data.length →
      marvin32_hash_streaming data (pre ++ ReadEv.err e :: rest) seed
        = Except.error e) := by
  constructor
  · intro data plan seed
    exact streamRun_dropInterrupted plan (initState seed) [] data
  · intro data pre e rest seed hg hi hoff
    exact streamRun_fatal pre (initState seed) [] data e rest hg hi (by simp) hoff

/-- Witness for C7: a 3-byte source that reads one byte and then fails with
a non-interrupted error of code 5. -/
theorem streaming_error_handling_witness :
    GoodPlan [ReadEv.give 0] = true ∧
    (IoError.mk false 5).interrupted = false ∧
    offered [ReadEv.give 0] < ([1, 2, 3] : List Nat).length ∧
    marvin32_hash_streaming [1, 2, 3]
        ([ReadEv.give 0] ++ ReadEv.err ⟨false, 5⟩ :: []) 0
      = Except.error ⟨false, 5⟩ :=
  ⟨by decide, by decide, by decide,
    streaming_error_handling.2 [1, 2, 3] [ReadEv.give 0] ⟨false, 5⟩ [] 0
      (by decide) (by decide) (by decide)⟩

theorem writeChunks_append (m : Marvin32) (l1 l2 : List (List Nat)) :
    writeChunks m (l1 ++ l2)
      = (writeChunks m l1).bind fun m2 => writeChunks m2 l2 := by
  induction l1 generalizing m with
  | nil => simp [writeChunks]
  | cons c cs ihc =>
    cases h : hasherWrite m c with
    | none => simp [writeChunks, h]
    | some m1 => simp [writeChunks, h, ihc]

theorem runOps_fresh : ∀ (ops : List HasherOp) (acc : List (List Nat))
    (m m2 : Marvin32) (outs : List Nat) (seed : Nat),
    writeChunks (marvin32New seed) acc = some m →
    runOps m ops = some (m2, outs) →
    writeChunks (marvin32New seed) (acc ++ pushesOf ops) = some m2 ∧
      freshOuts seed acc ops = some outs := by
  intro ops
  induction ops with
  | nil =>
    intro acc m m2 outs seed hw hr
    simp only [runOps, Option.some.injEq, Prod.mk.injEq] at hr
    obtain ⟨hm, houts⟩ := hr
    subst hm
    subst houts
    exact ⟨by simpa [pushesOf] using hw, rfl⟩
  | cons op rest ih =>
    intro acc m m2 outs seed hw hr
    cases op with
    | push s =>
      simp only [runOps] at hr
      rw [Option.bind_eq_some] at hr
      obtain ⟨m1, hws, hrest⟩ := hr
      have hw2 : writeChunks (marvin32New seed) (acc ++ [s]) = some m1 := by
        rw [writeChunks_append, hw]
        simp [writeChunks, hws]
      obtain ⟨h1, h2⟩ := ih (acc ++ [s]) m1 m2 outs seed hw2 hrest
      constructor
      · have hp : acc ++ pushesOf (HasherOp.push s :: rest)
            = (acc ++ [s]) ++ pushesOf rest := by
          simp [pushesOf]
        rw [hp]
        exact h1
      · simpa [freshOuts] using h2
    | finish =>
      simp only [runOps] at hr
      rw [Option.map_eq_some'] at hr
      obtain ⟨⟨m2x, outs2⟩, hrest, heq⟩ := hr
      simp only [Prod.mk.injEq] at heq
      obtain ⟨hm2, houts⟩ := heq
      subst hm2
      subst houts
      obtain ⟨h1, h2⟩ := ih acc m m2x outs2 seed hw hrest
      constructor
      · simpa [pushesOf] using h1
      · simp [freshOuts, hw, h2]

/-- Claim C8: finish never disturbs the hasher: in any completed run of
pushes interleaved with finishes, the final hasher state is exactly the one
produced by the pushes alone, and every finish call returns exactly the
value a fresh hasher given the pushes made so far would return. -/
theorem finish_is_pure (seed : Nat) (ops : List HasherOp) (m2 : Marvin32)
    (outs : List Nat)
    (h : runOps (marvin32New seed) ops = some (m2, outs)) :
    writeChunks (marvin32New seed) (pushesOf ops) = some m2 ∧
      freshOuts seed [] ops = some outs := by
  have hres := runOps_fresh ops [] (marvin32New seed) m2 outs seed rfl h
  simpa using hres

/-- Witness for C8: seed 7, pushing 5 bytes, finishing, pushing 3 more
bytes, finishing again. -/
theorem finish_is_pure_witness :
    runOps (marvin32New 7) [HasherOp.push [1, 2, 3, 4, 5], HasherOp.finish,
        HasherOp.push [6, 7, 8], HasherOp.finish]
      = some (⟨⟨358869604, 3401565046⟩, []⟩, [3107936786, 231561620]) ∧
    writeChunks (marvin32New 7) (pushesOf [HasherOp.push [1, 2, 3, 4, 5],
        HasherOp.finish, HasherOp.push [6, 7, 8], HasherOp.finish])
      = some ⟨⟨358869604, 3401565046⟩, []⟩ ∧
    freshOuts 7 [] [HasherOp.push [1, 2, 3, 4, 5], HasherOp.finish,
        HasherOp.push [6, 7, 8], HasherOp.finish]
      = some [3107936786, 231561620] :=
  ⟨by decide,
    (finish_is_pure 7 _ ⟨⟨358869604, 3401565046⟩, []⟩ [3107936786, 231561620]
      (by decide)).1,
    (finish_is_pure 7 _ ⟨⟨358869604, 3401565046⟩, []⟩ [3107936786, 231561620]
      (by decide)).2⟩

end Marvin
